import Mathlib

/-!
Verification of the perf-analysis core of `src/bin/perf_analyze.rs`:
stack-line parsing, sample-block accumulation, attribution of samples to a
root symbol and tracked callee symbols, first-file metadata selection, and
suite-level rollup.  Strings are modelled as lists of characters; the `u64`
counters are modelled as `Nat`.
-/

namespace PerfAnalyze

abbrev Str := List Char

/-- The Unicode White_Space code points, which is the set recognised by
`char::is_whitespace` (used by `trim`, `trim_start` and `split_whitespace`
in the source). -/
def rustIsWhitespace (c : Char) : Bool :=
  decide ((0x9 ≤ c.toNat ∧ c.toNat ≤ 0xD) ∨ c.toNat = 0x20 ∨ c.toNat = 0x85 ∨
    c.toNat = 0xA0 ∨ c.toNat = 0x1680 ∨ (0x2000 ≤ c.toNat ∧ c.toNat ≤ 0x200A) ∨
    c.toNat = 0x2028 ∨ c.toNat = 0x2029 ∨ c.toNat = 0x202F ∨ c.toNat = 0x205F ∨
    c.toNat = 0x3000)

/-- `str::contains(pat)`: `pat` occurs as a contiguous substring. -/
def strContains (hay pat : Str) : Bool :=
  match hay with
  | [] => pat.isEmpty
  | _ :: t => pat.isPrefixOf hay || strContains t pat

/-- `u64::from_str`: an optional leading plus sign followed by one or more
ASCII digits, with the value below `2 ^ 64`; anything else fails. -/
def parseU64 (s : Str) : Option Nat :=
  let digits := if s.head? = some '+' then s.tail else s
  if digits = [] then none
  else if digits.all Char.isDigit then
    let v := digits.foldl (fun acc c => acc * 10 + (c.toNat - 48)) 0
    if v < 2 ^ 64 then some v else none
  else none

/-- The characters after the first `':'`, or `none` when there is no colon
(`str::find(':')` followed by slicing at `colon_idx + 1`). -/
def afterFirstColon : Str → Option Str
  | [] => none
  | c :: rest => if c = ':' then some rest else afterFirstColon rest

/-- `parse_period_from_header`.  When the trimmed tail after the colon is
empty the source parses the fallback token `"1"`, which yields 1, the same
value `Option.getD` supplies for the empty token here. -/
def parse_period_from_header (header_line : Str) : Nat :=
  match afterFirstColon header_line with
  | none => 1
  | some after_colon =>
    let after_ts := after_colon.dropWhile rustIsWhitespace
    let first_token := after_ts.takeWhile fun c => !rustIsWhitespace c
    (parseU64 first_token).getD 1

/-- The part of `s` strictly before the first occurrence of `pat`
(`str::split(pat).next()`); all of `s` when `pat` does not occur. -/
def prefixBefore (pat : Str) : Str → Str
  | [] => []
  | c :: rest => if pat.isPrefixOf (c :: rest) then [] else c :: prefixBefore pat rest

/-- `parse_symbol_from_stack_line`: trim leading whitespace, drop the
instruction-address token, take the following token and truncate it at the
literal `+0x`. -/
def parse_symbol_from_stack_line (line : Str) : Option Str :=
  let trimmed := line.dropWhile rustIsWhitespace
  if trimmed = [] then none
  else
    let after_ip := (trimmed.dropWhile fun c => !rustIsWhitespace c).dropWhile rustIsWhitespace
    let symbol_with_offset := after_ip.takeWhile fun c => !rustIsWhitespace c
    if symbol_with_offset = [] then none
    else some (prefixBefore ['+', '0', 'x'] symbol_with_offset)

structure FunctionMatchCounter where
  sample_record_count : Nat
  period_sum : Nat
deriving DecidableEq, Repr

structure FunctionFocusCounter where
  root_sample_record_count : Nat
  root_period_sum : Nat
  callees : List FunctionMatchCounter
deriving DecidableEq, Repr

/-- The positions whose symbol contains the root substring
(`symbols.iter().enumerate().filter_map(...)` in `finalize_sample_block`). -/
def rootPositions (symbols : List Str) (root_symbol : Str) : List Nat :=
  symbols.enum.filterMap fun p => if strContains p.2 root_symbol then some p.1 else none

/-- The `callee_under_root` test of `finalize_sample_block`: some frame
contains the callee substring and sits strictly before some root position. -/
def calleeUnderRoot (symbols : List Str) (root_positions : List Nat) (callee : Str) : Bool :=
  symbols.enum.any fun fr =>
    strContains fr.2 callee && root_positions.any fun root_idx => decide (fr.1 < root_idx)

/-- `finalize_sample_block`.  The `callees` update mirrors the source's loop
over callee indices `0..callee_symbols.len()`; at every call site
`counters.callees` has exactly `callee_symbols.length` entries, so the
index-wise update is the `zipWith` below. -/
def finalize_sample_block (symbols : List Str) (period : Nat) (root_symbol : Str)
    (callee_symbols : List Str) (counters : FunctionFocusCounter) : FunctionFocusCounter :=
  if symbols = [] then counters
  else
    let root_positions := rootPositions symbols root_symbol
    if root_positions = [] then counters
    else
      { root_sample_record_count := counters.root_sample_record_count + 1
        root_period_sum := counters.root_period_sum + period
        callees := List.zipWith
          (fun callee c =>
            if calleeUnderRoot symbols root_positions callee then
              { sample_record_count := c.sample_record_count + 1
                period_sum := c.period_sum + period }
            else c)
          callee_symbols counters.callees }

/-- The accumulator state of `analyze_function_focus_with_perf_script`:
`current_symbols`, `current_period`, `in_sample` and the counters. -/
structure SampleAccState where
  current_symbols : List Str
  current_period : Nat
  in_sample : Bool
  counters : FunctionFocusCounter
deriving DecidableEq, Repr

/-- The zero counters `analyze_function_focus_with_perf_script` starts from:
one zeroed match counter per tracked callee. -/
def initialCounters (callee_symbols : List Str) : FunctionFocusCounter :=
  { root_sample_record_count := 0
    root_period_sum := 0
    callees := callee_symbols.map fun _ => { sample_record_count := 0, period_sum := 0 } }

/-- One iteration of the line loop of `analyze_function_focus_with_perf_script`. -/
def processScriptLine (root_symbol : Str) (callee_symbols : List Str)
    (st : SampleAccState) (line : Str) : SampleAccState :=
  if line.all rustIsWhitespace then
    if st.in_sample then
      { current_symbols := []
        current_period := 1
        in_sample := false
        counters := finalize_sample_block st.current_symbols st.current_period root_symbol
          callee_symbols st.counters }
    else st
  else if !st.in_sample then
    { st with current_period := parse_period_from_header line, in_sample := true }
  else
    match parse_symbol_from_stack_line line with
    | some symbol => { st with current_symbols := st.current_symbols ++ [symbol] }
    | none => st

/-- The state after feeding every line of the stream through the loop. -/
def accumulateScriptLines (root_symbol : Str) (callee_symbols : List Str)
    (lines : List Str) : SampleAccState :=
  lines.foldl (processScriptLine root_symbol callee_symbols)
    { current_symbols := []
      current_period := 1
      in_sample := false
      counters := initialCounters callee_symbols }

/-- `analyze_function_focus_with_perf_script` on an already-materialised
line stream: run the loop, then flush a still-open block at end of stream. -/
def analyze_function_focus_lines (root_symbol : Str) (callee_symbols : List Str)
    (lines : List Str) : FunctionFocusCounter :=
  let st := accumulateScriptLines root_symbol callee_symbols lines
  if st.in_sample then
    finalize_sample_block st.current_symbols st.current_period root_symbol callee_symbols
      st.counters
  else st.counters

/-- The first whitespace-separated token after the first colon of a header
line (empty when there is no colon or nothing follows it); this is the token
`parse_period_from_header` hands to the integer parser. -/
def headerFirstToken (header_line : Str) : Str :=
  match afterFirstColon header_line with
  | none => []
  | some after_colon =>
    (after_colon.dropWhile rustIsWhitespace).takeWhile fun c => !rustIsWhitespace c

/-- The per-file sampling metadata extracted by `count_sample_records_and_meta`. -/
structure FileMeta where
  event_name : Option Str
  sample_freq_hz : Option Nat
  sampling_policy : Str
deriving DecidableEq, Repr

/-- The `first_event_name` / `first_sample_freq_hz` / `first_sampling_policy`
accumulator of `main`. -/
structure FirstMeta where
  first_event_name : Option Str
  first_sample_freq_hz : Option Nat
  first_sampling_policy : Option Str
deriving DecidableEq, Repr

/-- One iteration of the three `is_none` checks in `main`'s file loop. -/
def updateFirstMeta (acc : FirstMeta) (m : FileMeta) : FirstMeta :=
  { first_event_name := if acc.first_event_name.isNone then m.event_name else acc.first_event_name
    first_sample_freq_hz :=
      if acc.first_sample_freq_hz.isNone then m.sample_freq_hz else acc.first_sample_freq_hz
    first_sampling_policy :=
      if acc.first_sampling_policy.isNone then some m.sampling_policy
      else acc.first_sampling_policy }

/-- The metadata basis recorded after processing the files in order, starting
from three absent values as `main` does. -/
def firstMetaOfFiles (metas : List FileMeta) : FirstMeta :=
  metas.foldl updateFirstMeta { first_event_name := none, first_sample_freq_hz := none
                                first_sampling_policy := none }

/-- The per-suite accumulator of `main` (`SuiteAccumulator` in the source). -/
structure SuiteAccumulator where
  benchmark_count : Nat
  root_samples : Nat
  root_period : Nat
  callee_samples : List Nat
  callee_periods : List Nat
deriving DecidableEq, Repr

/-- The fresh accumulator `main` inserts for a suite seen for the first time:
`k` is the number of configured callee symbols. -/
def initialSuiteAcc (k : Nat) : SuiteAccumulator :=
  { benchmark_count := 0
    root_samples := 0
    root_period := 0
    callee_samples := List.replicate k 0
    callee_periods := List.replicate k 0 }

/-- Folding one file's focus counters into its suite's accumulator (the
`+=` block of `main`).  The source loops over callee indices
`0..callee_symbols.len()`; the accumulator vectors and `focus.callees` all
have exactly that length at every call, so the index-wise sums are the
`zipWith`s below. -/
def addFocusToSuite (acc : SuiteAccumulator) (focus : FunctionFocusCounter) : SuiteAccumulator :=
  { benchmark_count := acc.benchmark_count + 1
    root_samples := acc.root_samples + focus.root_sample_record_count
    root_period := acc.root_period + focus.root_period_sum
    callee_samples :=
      acc.callee_samples.zipWith (· + ·) (focus.callees.map fun c => c.sample_record_count)
    callee_periods :=
      acc.callee_periods.zipWith (· + ·) (focus.callees.map fun c => c.period_sum) }

/-- Processing one file in `main`'s loop, restricted to the suite map: look
up (or freshly insert) the suite of the file, then fold the file's counters
in.  The `BTreeMap` is modelled as a function to `Option SuiteAccumulator`. -/
def stepSuite (k : Nat) (m : Str → Option SuiteAccumulator)
    (file : Str × FunctionFocusCounter) : Str → Option SuiteAccumulator :=
  fun s =>
    if s = file.1 then some (addFocusToSuite ((m file.1).getD (initialSuiteAcc k)) file.2)
    else m s

/-- The suite map after `main`'s whole file loop, given each file's suite
name and focus counters in processing order. -/
def suiteAccumulate (k : Nat) (files : List (Str × FunctionFocusCounter)) :
    Str → Option SuiteAccumulator :=
  files.foldl (stepSuite k) fun _ => none

/-- The per-file invariant of claim C5: every callee counter is bounded by
the root counter, in both samples and period. -/
def CalleeLeRoot (c : FunctionFocusCounter) : Prop :=
  ∀ (i : Nat) (e : FunctionMatchCounter), c.callees[i]? = some e →
    e.sample_record_count ≤ c.root_sample_record_count ∧ e.period_sum ≤ c.root_period_sum

/-! ### Characterisations of the attribution helpers -/

theorem strContains_nil (s : Str) : strContains s [] = true := by
  induction s with
  | nil => rfl
  | cons c t ih => simp [strContains]

theorem mem_rootPositions {symbols : List Str} {root_symbol : Str} {r : Nat} :
    r ∈ rootPositions symbols root_symbol ↔
      ∃ s, symbols[r]? = some s ∧ strContains s root_symbol = true := by
  unfold rootPositions
  simp only [List.mem_filterMap, Prod.exists, List.mk_mem_enum_iff_getElem?]
  constructor
  · rintro ⟨i, s, hget, hif⟩
    by_cases hc : strContains s root_symbol
    · simp only [hc, if_true, Option.some.injEq] at hif
      exact hif ▸ ⟨s, hget, hc⟩
    · simp [hc] at hif
  · rintro ⟨s, hget, hc⟩
    exact ⟨r, s, hget, by simp [hc]⟩

theorem calleeUnderRoot_eq_true {symbols : List Str} {rp : List Nat} {callee : Str} :
    calleeUnderRoot symbols rp callee = true ↔
      ∃ (p : Nat) (s : Str), symbols[p]? = some s ∧ strContains s callee = true ∧
        ∃ r ∈ rp, p < r := by
  unfold calleeUnderRoot
  simp only [List.any_eq_true, Prod.exists, List.mk_mem_enum_iff_getElem?, Bool.and_eq_true,
    decide_eq_true_eq]

theorem calleeUnderRoot_rootPositions_iff {symbols : List Str} {root_symbol callee : Str} :
    calleeUnderRoot symbols (rootPositions symbols root_symbol) callee = true ↔
      ∃ (p r : Nat) (sp sr : Str), symbols[p]? = some sp ∧ strContains sp callee = true ∧
        symbols[r]? = some sr ∧ strContains sr root_symbol = true ∧ p < r := by
  rw [calleeUnderRoot_eq_true]
  constructor
  · rintro ⟨p, s, hp, hc, r, hrmem, hlt⟩
    obtain ⟨sr, hr, hcr⟩ := mem_rootPositions.mp hrmem
    exact ⟨p, r, s, sr, hp, hc, hr, hcr, hlt⟩
  · rintro ⟨p, r, sp, sr, hp, hcp, hr, hcr, hlt⟩
    exact ⟨p, sp, hp, hcp, r, mem_rootPositions.mpr ⟨sr, hr, hcr⟩, hlt⟩

theorem rootPositions_ne_nil_of_match {symbols : List Str} {root_symbol : Str} {r : Nat}
    {s : Str} (hget : symbols[r]? = some s) (hc : strContains s root_symbol = true) :
    rootPositions symbols root_symbol ≠ [] := by
  intro hnil
  have : r ∈ rootPositions symbols root_symbol := mem_rootPositions.mpr ⟨s, hget, hc⟩
  rw [hnil] at this
  exact List.not_mem_nil _ this

/-! ### C1: callee attribution -/

/-- C1: for a finalized sample with symbol list `symbols` and period weight
`period`, a tracked callee's counter is bumped by exactly one sample and
exactly `period` iff some frame position `p` contains the callee substring
and some root-matching position `r` satisfies `p < r`; otherwise the
callee's counter is left exactly unchanged, so the bump happens at most once
per sample however many frames match. -/
theorem c1_callee_attribution (symbols : List Str) (period : Nat) (root_symbol : Str)
    (callee_symbols : List Str) (counters : FunctionFocusCounter)
    (idx : Nat) (callee : Str) (cc : FunctionMatchCounter)
    (hcal : callee_symbols[idx]? = some callee)
    (hcc : counters.callees[idx]? = some cc) :
    ((∃ (p r : Nat) (sp sr : Str), symbols[p]? = some sp ∧ strContains sp callee = true ∧
        symbols[r]? = some sr ∧ strContains sr root_symbol = true ∧ p < r) →
      (finalize_sample_block symbols period root_symbol callee_symbols counters).callees[idx]? =
        some { sample_record_count := cc.sample_record_count + 1
               period_sum := cc.period_sum + period }) ∧
    (¬ (∃ (p r : Nat) (sp sr : Str), symbols[p]? = some sp ∧ strContains sp callee = true ∧
        symbols[r]? = some sr ∧ strContains sr root_symbol = true ∧ p < r) →
      (finalize_sample_block symbols period root_symbol callee_symbols counters).callees[idx]? =
        some cc) := by
  by_cases hemp : symbols = []
  · subst hemp
    constructor
    · rintro ⟨p, r, sp, sr, hp, -⟩
      simp at hp
    · intro _
      simpa [finalize_sample_block] using hcc
  · by_cases hrp : rootPositions symbols root_symbol = []
    · constructor
      · rintro ⟨p, r, sp, sr, -, -, hr, hcr, -⟩
        exact absurd hrp (rootPositions_ne_nil_of_match hr hcr)
      · intro _
        simpa [finalize_sample_block, hemp, hrp] using hcc
    · have hres :
          (finalize_sample_block symbols period root_symbol callee_symbols counters).callees =
            List.zipWith
              (fun callee c =>
                if calleeUnderRoot symbols (rootPositions symbols root_symbol) callee then
                  { sample_record_count := c.sample_record_count + 1
                    period_sum := c.period_sum + period }
                else c)
              callee_symbols counters.callees := by
        simp [finalize_sample_block, hemp, hrp]
      rw [← List.get?_eq_getElem?] at hcal hcc
      constructor
      · intro hex
        have hflag := calleeUnderRoot_rootPositions_iff.mpr hex
        rw [hres, ← List.get?_eq_getElem?, List.get?_zipWith_eq_some]
        exact ⟨callee, cc, hcal, hcc, by rw [hflag]; simp⟩
      · intro hnex
        have hflag : calleeUnderRoot symbols (rootPositions symbols root_symbol) callee = false := by
          by_contra hne
          exact hnex (calleeUnderRoot_rootPositions_iff.mp (by simpa using hne))
        rw [hres, ← List.get?_eq_getElem?, List.get?_zipWith_eq_some]
        exact ⟨callee, cc, hcal, hcc, by rw [hflag]; simp⟩

/-- Witness for C1 at the spec's example: stack
`["leaf_fn", "callee_x", "root_fn", "caller_of_root"]`, root `"root_fn"`,
callee `"callee_x"` (position 1 < root position 2), period weight 7. -/
theorem c1_callee_attribution_witness :
    (finalize_sample_block
        ["leaf_fn".toList, "callee_x".toList, "root_fn".toList, "caller_of_root".toList]
        7 "root_fn".toList ["callee_x".toList]
        { root_sample_record_count := 0, root_period_sum := 0
          callees := [{ sample_record_count := 0, period_sum := 0 }] }).callees[0]? =
      some { sample_record_count := 0 + 1, period_sum := 0 + 7 } :=
  (c1_callee_attribution
      ["leaf_fn".toList, "callee_x".toList, "root_fn".toList, "caller_of_root".toList]
      7 "root_fn".toList ["callee_x".toList]
      { root_sample_record_count := 0, root_period_sum := 0
        callees := [{ sample_record_count := 0, period_sum := 0 }] }
      0 "callee_x".toList { sample_record_count := 0, period_sum := 0 }
      (by decide) (by decide)).1
    ⟨1, 2, "callee_x".toList, "root_fn".toList, by decide, by decide, by decide, by decide,
      by decide⟩

/-! ### C2: no root match means no update -/

/-- C2: a finalized sample with an empty symbol list, or whose symbols all
fail to contain the root substring, leaves every counter unchanged; and
whenever any callee counter changes, the root counters of the same sample
were incremented too (by one sample and by the period weight). -/
theorem c2_no_root_no_update (symbols : List Str) (period : Nat) (root_symbol : Str)
    (callee_symbols : List Str) (counters : FunctionFocusCounter) :
    ((symbols = [] ∨ ∀ s ∈ symbols, strContains s root_symbol = false) →
      finalize_sample_block symbols period root_symbol callee_symbols counters = counters) ∧
    ((finalize_sample_block symbols period root_symbol callee_symbols counters).callees ≠
        counters.callees →
      (finalize_sample_block symbols period root_symbol callee_symbols
            counters).root_sample_record_count = counters.root_sample_record_count + 1 ∧
      (finalize_sample_block symbols period root_symbol callee_symbols
            counters).root_period_sum = counters.root_period_sum + period) := by
  by_cases hemp : symbols = []
  · subst hemp
    exact ⟨fun _ => by simp [finalize_sample_block], fun hne => absurd rfl hne⟩
  · by_cases hrp : rootPositions symbols root_symbol = []
    · refine ⟨fun _ => by simp [finalize_sample_block, hemp, hrp], fun hne => ?_⟩
      exact absurd (by simp [finalize_sample_block, hemp, hrp]) hne
    · constructor
      · rintro (rfl | hall)
        · exact absurd rfl hemp
        · exfalso
          obtain ⟨r, hr⟩ := List.exists_mem_of_ne_nil _ hrp
          obtain ⟨s, hget, hc⟩ := mem_rootPositions.mp hr
          have hmem : s ∈ symbols := by
            obtain ⟨hlt, rfl⟩ := List.getElem?_eq_some.mp hget
            exact List.getElem_mem hlt
          rw [hall s hmem] at hc
          exact Bool.false_ne_true hc
      · intro _
        constructor <;> simp [finalize_sample_block, hemp, hrp]

/-- Witness for C2: a one-frame stack `["alpha"]` with root `"zeta"` (no
containment) leaves the counters exactly as they were. -/
theorem c2_no_root_no_update_witness :
    finalize_sample_block ["alpha".toList] 5 "zeta".toList ["alpha".toList]
        { root_sample_record_count := 3, root_period_sum := 9
          callees := [{ sample_record_count := 2, period_sum := 4 }] } =
      { root_sample_record_count := 3, root_period_sum := 9
        callees := [{ sample_record_count := 2, period_sum := 4 }] } :=
  (c2_no_root_no_update ["alpha".toList] 5 "zeta".toList ["alpha".toList]
      { root_sample_record_count := 3, root_period_sum := 9
        callees := [{ sample_record_count := 2, period_sum := 4 }] }).1
    (Or.inr (by decide))

/-! ### C10: empty root and callee substrings -/

/-- C10: with the empty root substring, every finalized sample holding at
least one parsed symbol matches the root (every symbol contains the empty
string), so the root counters are incremented; and an empty callee substring
is attributed in every such sample having a frame strictly below some
root-matching position (with the empty root, any position below another). -/
theorem c10_empty_root_matches_all (symbols : List Str) (period : Nat)
    (callee_symbols : List Str) (counters : FunctionFocusCounter)
    (h : symbols ≠ []) :
    (finalize_sample_block symbols period [] callee_symbols counters).root_sample_record_count =
        counters.root_sample_record_count + 1 ∧
    (finalize_sample_block symbols period [] callee_symbols counters).root_period_sum =
        counters.root_period_sum + period ∧
    (∀ (idx : Nat) (cc : FunctionMatchCounter),
      callee_symbols[idx]? = some ([] : Str) → counters.callees[idx]? = some cc →
      (∃ (p r : Nat), p < r ∧ r < symbols.length) →
      (finalize_sample_block symbols period [] callee_symbols counters).callees[idx]? =
        some { sample_record_count := cc.sample_record_count + 1
               period_sum := cc.period_sum + period }) := by
  obtain ⟨s0, rest, rfl⟩ : ∃ s0 rest, symbols = s0 :: rest := by
    cases symbols with
    | nil => exact absurd rfl h
    | cons a l => exact ⟨a, l, rfl⟩
  have hrp : rootPositions (s0 :: rest) [] ≠ [] :=
    rootPositions_ne_nil_of_match (r := 0) (s := s0) (by simp) (strContains_nil s0)
  refine ⟨by simp [finalize_sample_block, hrp], by simp [finalize_sample_block, hrp], ?_⟩
  rintro idx cc hcal hcc ⟨p, r, hpr, hrlen⟩
  obtain ⟨sr, hsr⟩ : ∃ sr, (s0 :: rest)[r]? = some sr :=
    ⟨_, List.getElem?_eq_getElem (show r < (s0 :: rest).length from hrlen)⟩
  obtain ⟨sp, hsp⟩ : ∃ sp, (s0 :: rest)[p]? = some sp :=
    ⟨_, List.getElem?_eq_getElem (show p < (s0 :: rest).length from lt_trans hpr hrlen)⟩
  have hres :
      (finalize_sample_block (s0 :: rest) period [] callee_symbols counters).callees =
        List.zipWith
          (fun callee c =>
            if calleeUnderRoot (s0 :: rest) (rootPositions (s0 :: rest) []) callee then
              { sample_record_count := c.sample_record_count + 1
                period_sum := c.period_sum + period }
            else c)
          callee_symbols counters.callees := by
    simp [finalize_sample_block, hrp]
  have hflag : calleeUnderRoot (s0 :: rest) (rootPositions (s0 :: rest) []) [] = true :=
    calleeUnderRoot_rootPositions_iff.mpr
      ⟨p, r, sp, sr, hsp, strContains_nil sp, hsr, strContains_nil sr, hpr⟩
  rw [hres, ← List.get?_eq_getElem?, List.get?_zipWith_eq_some]
  rw [← List.get?_eq_getElem?] at hcal hcc
  exact ⟨[], cc, hcal, hcc, by rw [hflag]; simp⟩

/-- Witness for C10: the two-frame stack `["leaf", "main"]` with empty root
and empty callee substrings gets both the root and the callee attributed. -/
theorem c10_empty_root_matches_all_witness :
    (finalize_sample_block ["leaf".toList, "main".toList] 3 [] [([] : Str)]
          { root_sample_record_count := 0, root_period_sum := 0
            callees := [{ sample_record_count := 0, period_sum := 0 }] }).callees[0]? =
      some { sample_record_count := 0 + 1, period_sum := 0 + 3 } :=
  ((c10_empty_root_matches_all ["leaf".toList, "main".toList] 3 [([] : Str)]
        { root_sample_record_count := 0, root_period_sum := 0
          callees := [{ sample_record_count := 0, period_sum := 0 }] }
        (by decide)).2.2)
    0 { sample_record_count := 0, period_sum := 0 } (by decide) (by decide)
    ⟨0, 1, by decide, by decide⟩

/-! ### Header parsing: helper lemmas -/

theorem afterFirstColon_append {pre post : Str} (h : ∀ c ∈ pre, c ≠ ':') :
    afterFirstColon (pre ++ ':' :: post) = some post := by
  induction pre with
  | nil => simp [afterFirstColon]
  | cons c t ih =>
    have hc : c ≠ ':' := h c (by simp)
    simp only [List.cons_append, afterFirstColon, if_neg hc]
    exact ih fun x hx => h x (by simp [hx])

theorem afterFirstColon_eq_none {line : Str} (h : ∀ c ∈ line, c ≠ ':') :
    afterFirstColon line = none := by
  induction line with
  | nil => rfl
  | cons c t ih =>
    have hc : c ≠ ':' := h c (by simp)
    simp only [afterFirstColon, if_neg hc]
    exact ih fun x hx => h x (by simp [hx])

theorem dropWhile_append_all {p : Char → Bool} {xs ys : Str} (h : ∀ c ∈ xs, p c = true) :
    (xs ++ ys).dropWhile p = ys.dropWhile p := by
  induction xs with
  | nil => rfl
  | cons c t ih =>
    simp only [List.cons_append, List.dropWhile_cons, h c (by simp), if_true]
    exact ih fun x hx => h x (by simp [hx])

theorem takeWhile_append_all {p : Char → Bool} {xs ys : Str} (h : ∀ c ∈ xs, p c = true) :
    (xs ++ ys).takeWhile p = xs ++ ys.takeWhile p := by
  induction xs with
  | nil => rfl
  | cons c t ih =>
    simp only [List.cons_append, List.takeWhile_cons, h c (by simp), if_true]
    rw [ih fun x hx => h x (by simp [hx])]

theorem foldl_digits_eq_ofDigits (ds : Str) (a : Nat) :
    ds.foldl (fun acc c => acc * 10 + (c.toNat - 48)) a =
      a * 10 ^ ds.length + Nat.ofDigits 10 ((ds.map fun c => c.toNat - 48).reverse) := by
  induction ds generalizing a with
  | nil => simp [Nat.ofDigits]
  | cons d t ih =>
    simp only [List.foldl_cons, List.map_cons, List.reverse_cons, List.length_cons]
    rw [ih, Nat.ofDigits_append, Nat.ofDigits_singleton]
    simp only [List.length_reverse, List.length_map]
    ring

theorem parseU64_all_digits {tok : Str} (h1 : tok ≠ []) (h2 : ∀ c ∈ tok, c.isDigit = true)
    (h3 : Nat.ofDigits 10 ((tok.map fun c => c.toNat - 48).reverse) < 2 ^ 64) :
    parseU64 tok = some (Nat.ofDigits 10 ((tok.map fun c => c.toNat - 48).reverse)) := by
  have hhead : tok.head? ≠ some '+' := by
    cases tok with
    | nil => simp
    | cons c t =>
      intro hc
      have hc' : c = '+' := by simpa using hc
      subst hc'
      have := h2 '+' (by simp)
      simp [Char.isDigit] at this
  have hall : tok.all Char.isDigit = true := List.all_eq_true.mpr h2
  have hfold := foldl_digits_eq_ofDigits tok 0
  simp only [Nat.zero_mul, Nat.zero_add] at hfold
  unfold parseU64
  rw [if_neg hhead, if_neg h1, if_pos hall]
  show (if List.foldl (fun acc c => acc * 10 + (c.toNat - 48)) 0 tok < 2 ^ 64 then
      some (List.foldl (fun acc c => acc * 10 + (c.toNat - 48)) 0 tok) else none) =
    some (Nat.ofDigits 10 ((tok.map fun c => c.toNat - 48).reverse))
  rw [hfold, if_pos h3]

theorem parse_period_eq_token_parse (line : Str) :
    parse_period_from_header line = (parseU64 (headerFirstToken line)).getD 1 := by
  unfold parse_period_from_header headerFirstToken
  cases afterFirstColon line with
  | none => rfl
  | some after_colon => rfl

/-! ### C3: period weight bounds -/

/-- C3 counterexample: the header `"1.0: 0 cycles:"` parses — the token after
the colon is the integer `0` — and the accumulator attaches period `0`, not
a weight `≥ 1`, to the finalized sample: the root below is counted once with
a period sum of `0`. -/
theorem c3_period_zero_counterexample :
    parse_period_from_header "1.0: 0 cycles:".toList = 0 ∧
    ¬ 1 ≤ parse_period_from_header "1.0: 0 cycles:".toList ∧
    analyze_function_focus_lines "root_fn".toList []
        ["1.0: 0 cycles:".toList, "  ffffabcd root_fn+0x123 (/lib/x)".toList, [] ] =
      { root_sample_record_count := 1, root_period_sum := 0, callees := [] } := by
  refine ⟨by decide, by decide, by decide⟩

/-- C3 (amended): the period attached to a sample is `≥ 1` for every header
line whose first token after the first colon does not parse as the integer
`0`; in particular it is 1 when the header is unparsable. -/
theorem c3_period_ge_one (line : Str)
    (h : parseU64 (headerFirstToken line) ≠ some 0) :
    1 ≤ parse_period_from_header line := by
  rw [parse_period_eq_token_parse]
  cases hp : parseU64 (headerFirstToken line) with
  | none => simp
  | some v =>
    simp only [Option.getD_some]
    exact Nat.one_le_iff_ne_zero.mpr fun hv => h (hv ▸ hp)

/-- Witness for C3 (amended) on the header `"a: 5 cycles:"`. -/
theorem c3_period_ge_one_witness :
    1 ≤ parse_period_from_header "a: 5 cycles:".toList :=
  c3_period_ge_one "a: 5 cycles:".toList (by decide)

/-! ### C8: the header parser -/

/-- C8: `parse_period_from_header` is total and (i) yields 1 on a line with
no colon; (ii) on `pre ++ ":" ++ whitespace ++ token ++ rest` (no colon in
`pre`, `rest` empty or starting with whitespace) yields the token parsed as
a non-negative integer, with fallback 1 when the token does not parse;
(iii) the integer parser accepts exactly the decimal value of an all-digit
token that fits in a `u64`; and (iv) the spec's example header
`"1234567.890123: 500 cycles:"` yields 500. -/
theorem c8_parse_period_from_header :
    (∀ line : Str, (∀ c ∈ line, c ≠ ':') → parse_period_from_header line = 1) ∧
    (∀ pre w tok rest : Str, (∀ c ∈ pre, c ≠ ':') →
      (∀ c ∈ w, rustIsWhitespace c = true) → tok ≠ [] →
      (∀ c ∈ tok, rustIsWhitespace c = false) →
      (rest = [] ∨ ∃ (c : Char) (rest₂ : Str), rest = c :: rest₂ ∧ rustIsWhitespace c = true) →
      parse_period_from_header (pre ++ ':' :: (w ++ tok ++ rest)) = (parseU64 tok).getD 1) ∧
    (∀ tok : Str, tok ≠ [] → (∀ c ∈ tok, c.isDigit = true) →
      Nat.ofDigits 10 ((tok.map fun c => c.toNat - 48).reverse) < 2 ^ 64 →
      parseU64 tok = some (Nat.ofDigits 10 ((tok.map fun c => c.toNat - 48).reverse))) ∧
    parse_period_from_header "1234567.890123: 500 cycles:".toList = 500 := by
  refine ⟨?_, ?_, fun tok h1 h2 h3 => parseU64_all_digits h1 h2 h3, by decide⟩
  · intro line h
    unfold parse_period_from_header
    rw [afterFirstColon_eq_none h]
  · intro pre w tok rest hpre hw htok hnw hrest
    have hdrop : (w ++ tok ++ rest).dropWhile rustIsWhitespace = tok ++ rest := by
      rw [List.append_assoc, dropWhile_append_all hw]
      cases tok with
      | nil => exact absurd rfl htok
      | cons c t => simp [List.dropWhile_cons, hnw c (by simp)]
    have htake : (tok ++ rest).takeWhile (fun c => !rustIsWhitespace c) = tok := by
      rw [takeWhile_append_all fun c hc => by simp [hnw c hc]]
      rcases hrest with rfl | ⟨c, rest₂, rfl, hc⟩
      · simp
      · simp [List.takeWhile_cons, hc]
    unfold parse_period_from_header
    rw [afterFirstColon_append hpre]
    show (parseU64 (((w ++ tok ++ rest).dropWhile rustIsWhitespace).takeWhile
        fun c => !rustIsWhitespace c)).getD 1 = (parseU64 tok).getD 1
    rw [hdrop, htake]

/-- Witness for C8 on the header `"ts: 42 cycles"`, written in its split
form: the token `"42"` is returned parsed. -/
theorem c8_parse_period_from_header_witness :
    parse_period_from_header ("ts".toList ++ ':' :: (" ".toList ++ "42".toList ++ " cycles".toList)) =
      (parseU64 "42".toList).getD 1 :=
  c8_parse_period_from_header.2.1 "ts".toList " ".toList "42".toList " cycles".toList
    (by decide) (by decide) (by decide) (by decide)
    (Or.inr ⟨' ', "cycles".toList, by decide, by decide⟩)

/-! ### C5: callee counters never exceed root counters -/

theorem finalize_preserves_calleeLeRoot (symbols : List Str) (period : Nat) (root_symbol : Str)
    (callee_symbols : List Str) (counters : FunctionFocusCounter)
    (h : CalleeLeRoot counters) :
    CalleeLeRoot (finalize_sample_block symbols period root_symbol callee_symbols counters) := by
  by_cases hemp : symbols = []
  · rw [show finalize_sample_block symbols period root_symbol callee_symbols counters = counters
      from by simp [finalize_sample_block, hemp]]
    exact h
  by_cases hrp : rootPositions symbols root_symbol = []
  · rw [show finalize_sample_block symbols period root_symbol callee_symbols counters = counters
      from by simp [finalize_sample_block, hemp, hrp]]
    exact h
  intro i e he
  have h1 : (finalize_sample_block symbols period root_symbol callee_symbols
      counters).root_sample_record_count = counters.root_sample_record_count + 1 := by
    simp [finalize_sample_block, hemp, hrp]
  have h2 : (finalize_sample_block symbols period root_symbol callee_symbols
      counters).root_period_sum = counters.root_period_sum + period := by
    simp [finalize_sample_block, hemp, hrp]
  have h3 : (finalize_sample_block symbols period root_symbol callee_symbols counters).callees =
      List.zipWith
        (fun callee c =>
          if calleeUnderRoot symbols (rootPositions symbols root_symbol) callee then
            { sample_record_count := c.sample_record_count + 1
              period_sum := c.period_sum + period }
          else c)
        callee_symbols counters.callees := by
    simp [finalize_sample_block, hemp, hrp]
  rw [h3, ← List.get?_eq_getElem?, List.get?_zipWith_eq_some] at he
  obtain ⟨cal, c0, -, hc0, heq⟩ := he
  rw [List.get?_eq_getElem?] at hc0
  obtain ⟨b1, b2⟩ := h i c0 hc0
  rw [h1, h2]
  by_cases hf : calleeUnderRoot symbols (rootPositions symbols root_symbol) cal
  · rw [if_pos hf] at heq
    rw [← heq]
    constructor
    · show c0.sample_record_count + 1 ≤ counters.root_sample_record_count + 1
      omega
    · show c0.period_sum + period ≤ counters.root_period_sum + period
      omega
  · rw [if_neg hf] at heq
    rw [← heq]
    exact ⟨by omega, by omega⟩

theorem processScriptLine_preserves_calleeLeRoot (root_symbol : Str)
    (callee_symbols : List Str) (st : SampleAccState) (line : Str)
    (h : CalleeLeRoot st.counters) :
    CalleeLeRoot (processScriptLine root_symbol callee_symbols st line).counters := by
  unfold processScriptLine
  split
  · split
    · exact finalize_preserves_calleeLeRoot _ _ _ _ _ h
    · exact h
  · split
    · exact h
    · split
      · exact h
      · exact h

theorem initialCounters_calleeLeRoot (callee_symbols : List Str) :
    CalleeLeRoot (initialCounters callee_symbols) := by
  intro i e he
  unfold initialCounters at he
  simp only [List.getElem?_map] at he
  cases hi : callee_symbols[i]? with
  | none => rw [hi] at he; simp at he
  | some s =>
    rw [hi] at he
    simp only [Option.map_some'] at he
    cases he
    exact ⟨Nat.le_refl 0, Nat.le_refl 0⟩

theorem foldl_processScriptLine_calleeLeRoot (root_symbol : Str) (callee_symbols : List Str)
    (lines : List Str) (st : SampleAccState) (h : CalleeLeRoot st.counters) :
    CalleeLeRoot ((lines.foldl (processScriptLine root_symbol callee_symbols) st).counters) := by
  induction lines generalizing st with
  | nil => exact h
  | cons line rest ih =>
    exact ih _ (processScriptLine_preserves_calleeLeRoot root_symbol callee_symbols st line h)

theorem analyze_calleeLeRoot (root_symbol : Str) (callee_symbols : List Str)
    (lines : List Str) :
    CalleeLeRoot (analyze_function_focus_lines root_symbol callee_symbols lines) := by
  have hacc : CalleeLeRoot (accumulateScriptLines root_symbol callee_symbols lines).counters :=
    foldl_processScriptLine_calleeLeRoot root_symbol callee_symbols lines _
      (initialCounters_calleeLeRoot callee_symbols)
  unfold analyze_function_focus_lines
  by_cases hin : (accumulateScriptLines root_symbol callee_symbols lines).in_sample = true
  · rw [if_pos hin]
    exact finalize_preserves_calleeLeRoot _ _ _ _ _ hacc
  · rw [if_neg hin]
    exact hacc

/-- C5: for the counters produced by running any line stream through the
accumulator and attribution, every tracked callee's sample count is at most
the root sample count and its period sum is at most the root period sum. -/
theorem c5_callee_bounded_by_root (root_symbol : Str) (callee_symbols : List Str)
    (lines : List Str) (idx : Nat) (e : FunctionMatchCounter)
    (h : (analyze_function_focus_lines root_symbol callee_symbols lines).callees[idx]? = some e) :
    e.sample_record_count ≤
        (analyze_function_focus_lines root_symbol callee_symbols lines).root_sample_record_count ∧
    e.period_sum ≤
        (analyze_function_focus_lines root_symbol callee_symbols lines).root_period_sum :=
  analyze_calleeLeRoot root_symbol callee_symbols lines idx e h

/-- Witness for C5 on a two-frame sample whose callee frame sits under the
root frame: the callee counter `⟨1, 2⟩` is bounded by the root counters. -/
theorem c5_callee_bounded_by_root_witness :
    ({ sample_record_count := 1, period_sum := 2 } : FunctionMatchCounter).sample_record_count ≤
        (analyze_function_focus_lines "r".toList ["c".toList]
          ["h: 2 x:".toList, " 1 c+0x1 (l)".toList, " 2 r+0x2 (l)".toList,
            [] ]).root_sample_record_count ∧
    ({ sample_record_count := 1, period_sum := 2 } : FunctionMatchCounter).period_sum ≤
        (analyze_function_focus_lines "r".toList ["c".toList]
          ["h: 2 x:".toList, " 1 c+0x1 (l)".toList, " 2 r+0x2 (l)".toList,
            [] ]).root_period_sum :=
  c5_callee_bounded_by_root "r".toList ["c".toList]
    ["h: 2 x:".toList, " 1 c+0x1 (l)".toList, " 2 r+0x2 (l)".toList, [] ]
    0 { sample_record_count := 1, period_sum := 2 } (by decide)

/-! ### C7: flush on end of stream -/

/-- C7: when the line stream ends while a sample block is still open, the
end-of-stream flush makes the resulting counters equal those of the same
stream with one blank line appended — no trailing sample is dropped. -/
theorem c7_eof_flush (root_symbol : Str) (callee_symbols : List Str) (lines : List Str)
    (h : (accumulateScriptLines root_symbol callee_symbols lines).in_sample = true) :
    analyze_function_focus_lines root_symbol callee_symbols lines =
      analyze_function_focus_lines root_symbol callee_symbols (lines ++ [[]]) := by
  have hacc : accumulateScriptLines root_symbol callee_symbols (lines ++ [[]]) =
      processScriptLine root_symbol callee_symbols
        (accumulateScriptLines root_symbol callee_symbols lines) [] := by
    unfold accumulateScriptLines
    rw [List.foldl_append]
    rfl
  unfold analyze_function_focus_lines
  rw [hacc]
  simp [processScriptLine, h]

/-- Witness for C7: a stream that ends right after a header line (a block in
progress, no trailing blank line). -/
theorem c7_eof_flush_witness :
    analyze_function_focus_lines "r".toList [] ["h: 2 x:".toList] =
      analyze_function_focus_lines "r".toList [] ["h: 2 x:".toList, [] ] :=
  c7_eof_flush "r".toList [] ["h: 2 x:".toList] (by decide)

/-! ### C4: the metadata basis -/

theorem foldl_updateFirstMeta_event (metas : List FileMeta) (acc : FirstMeta) :
    (metas.foldl updateFirstMeta acc).first_event_name =
      if acc.first_event_name.isNone then metas.findSome? (fun m => m.event_name)
      else acc.first_event_name := by
  induction metas generalizing acc with
  | nil => cases hacc : acc.first_event_name <;> simp [hacc]
  | cons m t ih =>
    rw [List.foldl_cons, ih]
    cases hacc : acc.first_event_name with
    | some x => simp [updateFirstMeta, hacc]
    | none =>
      cases hm : m.event_name with
      | some y => simp [updateFirstMeta, hacc, hm, List.findSome?_cons]
      | none => simp [updateFirstMeta, hacc, hm, List.findSome?_cons]

theorem foldl_updateFirstMeta_freq (metas : List FileMeta) (acc : FirstMeta) :
    (metas.foldl updateFirstMeta acc).first_sample_freq_hz =
      if acc.first_sample_freq_hz.isNone then metas.findSome? (fun m => m.sample_freq_hz)
      else acc.first_sample_freq_hz := by
  induction metas generalizing acc with
  | nil => cases hacc : acc.first_sample_freq_hz <;> simp [hacc]
  | cons m t ih =>
    rw [List.foldl_cons, ih]
    cases hacc : acc.first_sample_freq_hz with
    | some x => simp [updateFirstMeta, hacc]
    | none =>
      cases hm : m.sample_freq_hz with
      | some y => simp [updateFirstMeta, hacc, hm, List.findSome?_cons]
      | none => simp [updateFirstMeta, hacc, hm, List.findSome?_cons]

theorem foldl_updateFirstMeta_policy (metas : List FileMeta) (acc : FirstMeta) :
    (metas.foldl updateFirstMeta acc).first_sampling_policy =
      if acc.first_sampling_policy.isNone then
        (metas.head?).map (fun m => m.sampling_policy)
      else acc.first_sampling_policy := by
  induction metas generalizing acc with
  | nil => cases hacc : acc.first_sampling_policy <;> simp [hacc]
  | cons m t ih =>
    rw [List.foldl_cons, ih]
    cases hacc : acc.first_sampling_policy with
    | some x => simp [updateFirstMeta, hacc]
    | none => simp [updateFirstMeta, hacc]

/-- C4 counterexample: with a first file carrying no event name and no
frequency, the recorded basis takes the second file's values — the basis is
not the first file's observed values. -/
theorem c4_first_file_counterexample :
    (firstMetaOfFiles
        [{ event_name := none, sample_freq_hz := none
           sampling_policy := "period(100)".toList },
         { event_name := some "cycles".toList, sample_freq_hz := some 1000
           sampling_policy := "frequency".toList }]).first_sample_freq_hz = some 1000 ∧
    ({ event_name := none, sample_freq_hz := none
       sampling_policy := "period(100)".toList } : FileMeta).sample_freq_hz = none ∧
    (firstMetaOfFiles
        [{ event_name := none, sample_freq_hz := none
           sampling_policy := "period(100)".toList },
         { event_name := some "cycles".toList, sample_freq_hz := some 1000
           sampling_policy := "frequency".toList }]).first_sample_freq_hz ≠
      ({ event_name := none, sample_freq_hz := none
         sampling_policy := "period(100)".toList } : FileMeta).sample_freq_hz := by
  refine ⟨by decide, by decide, by decide⟩

/-- C4 (amended): the event-name and frequency basis recorded for all
ms-estimates is the first present value observed across the files in
processing order (hence the first file's value whenever the first file
carries one), and the policy basis is the first file's policy. -/
theorem c4_first_observed_basis (metas : List FileMeta) :
    (firstMetaOfFiles metas).first_event_name = metas.findSome? (fun m => m.event_name) ∧
    (firstMetaOfFiles metas).first_sample_freq_hz =
      metas.findSome? (fun m => m.sample_freq_hz) ∧
    (firstMetaOfFiles metas).first_sampling_policy =
      (metas.head?).map (fun m => m.sampling_policy) := by
  unfold firstMetaOfFiles
  refine ⟨?_, ?_, ?_⟩
  · rw [foldl_updateFirstMeta_event]
    simp
  · rw [foldl_updateFirstMeta_freq]
    simp
  · rw [foldl_updateFirstMeta_policy]
    simp

/-! ### C6: suite sums -/

theorem foldl_stepSuite_apply (k : Nat) (files : List (Str × FunctionFocusCounter))
    (m0 : Str → Option SuiteAccumulator) (s : Str) :
    (files.foldl (stepSuite k) m0) s =
      if (files.filter fun f => decide (f.1 = s)) = [] then m0 s
      else
        some (((files.filter fun f => decide (f.1 = s)).map Prod.snd).foldl addFocusToSuite
          ((m0 s).getD (initialSuiteAcc k))) := by
  induction files generalizing m0 with
  | nil => simp
  | cons f fs ih =>
    rw [List.foldl_cons, ih]
    by_cases hs : f.1 = s
    · have hfil : ((f :: fs).filter fun g => decide (g.1 = s)) =
          f :: (fs.filter fun g => decide (g.1 = s)) := by
        simp [List.filter_cons, hs]
      have hm1 : stepSuite k m0 f s =
          some (addFocusToSuite ((m0 s).getD (initialSuiteAcc k)) f.2) := by
        unfold stepSuite
        rw [if_pos hs.symm, hs]
      rw [hfil]
      by_cases hrest : (fs.filter fun g => decide (g.1 = s)) = []
      · rw [if_pos hrest, hm1, if_neg (List.cons_ne_nil f _), hrest]
        simp
      · rw [if_neg hrest, if_neg (List.cons_ne_nil f _), hm1]
        simp [List.foldl_cons]
    · have hfil : ((f :: fs).filter fun g => decide (g.1 = s)) =
          fs.filter fun g => decide (g.1 = s) := by
        simp [List.filter_cons, hs]
      have hm1 : stepSuite k m0 f s = m0 s := by
        unfold stepSuite
        rw [if_neg fun h => hs h.symm]
      rw [hfil, hm1]

theorem foldl_addFocus_spec (k : Nat) (foci : List FunctionFocusCounter)
    (acc : SuiteAccumulator)
    (h1 : acc.callee_samples.length = k) (h2 : acc.callee_periods.length = k)
    (hf : ∀ f ∈ foci, f.callees.length = k) :
    (foci.foldl addFocusToSuite acc).benchmark_count = acc.benchmark_count + foci.length ∧
    (foci.foldl addFocusToSuite acc).root_samples =
      acc.root_samples + (foci.map fun f => f.root_sample_record_count).sum ∧
    (foci.foldl addFocusToSuite acc).root_period =
      acc.root_period + (foci.map fun f => f.root_period_sum).sum ∧
    (foci.foldl addFocusToSuite acc).callee_samples.length = k ∧
    (foci.foldl addFocusToSuite acc).callee_periods.length = k ∧
    ∀ i : Nat, i < k →
      (foci.foldl addFocusToSuite acc).callee_samples[i]? =
        some (((acc.callee_samples[i]?).getD 0) +
          (foci.map fun f => ((f.callees[i]?).map fun c => c.sample_record_count).getD 0).sum) ∧
      (foci.foldl addFocusToSuite acc).callee_periods[i]? =
        some (((acc.callee_periods[i]?).getD 0) +
          (foci.map fun f => ((f.callees[i]?).map fun c => c.period_sum).getD 0).sum) := by
  induction foci generalizing acc with
  | nil =>
    refine ⟨by simp, by simp, by simp, h1, h2, ?_⟩
    intro i hi
    have ha : acc.callee_samples[i]? = some acc.callee_samples[i] :=
      List.getElem?_eq_getElem (by omega)
    have hb : acc.callee_periods[i]? = some acc.callee_periods[i] :=
      List.getElem?_eq_getElem (by omega)
    rw [ha, hb]
    simp
  | cons f t ih =>
    have hlen_f : f.callees.length = k := hf f (by simp)
    have h1' : (addFocusToSuite acc f).callee_samples.length = k := by
      unfold addFocusToSuite
      simp [List.length_zipWith, h1, hlen_f]
    have h2' : (addFocusToSuite acc f).callee_periods.length = k := by
      unfold addFocusToSuite
      simp [List.length_zipWith, h2, hlen_f]
    obtain ⟨B1, B2, B3, B4, B5, B6⟩ :=
      ih (addFocusToSuite acc f) h1' h2' fun g hg => hf g (by simp [hg])
    rw [List.foldl_cons]
    refine ⟨?_, ?_, ?_, B4, B5, ?_⟩
    · rw [B1]
      show acc.benchmark_count + 1 + t.length = acc.benchmark_count + (f :: t).length
      simp only [List.length_cons]
      omega
    · rw [B2]
      show acc.root_samples + f.root_sample_record_count + _ = _
      simp only [List.map_cons, List.sum_cons]
      omega
    · rw [B3]
      show acc.root_period + f.root_period_sum + _ = _
      simp only [List.map_cons, List.sum_cons]
      omega
    · intro i hi
      obtain ⟨C1, C2⟩ := B6 i hi
      obtain ⟨a, ha⟩ : ∃ a, acc.callee_samples[i]? = some a :=
        ⟨_, List.getElem?_eq_getElem (show i < acc.callee_samples.length by omega)⟩
      obtain ⟨b, hb⟩ : ∃ b, acc.callee_periods[i]? = some b :=
        ⟨_, List.getElem?_eq_getElem (show i < acc.callee_periods.length by omega)⟩
      obtain ⟨fc, hfc⟩ : ∃ fc, f.callees[i]? = some fc :=
        ⟨_, List.getElem?_eq_getElem (show i < f.callees.length by omega)⟩
      have hzs : (addFocusToSuite acc f).callee_samples[i]? =
          some (a + fc.sample_record_count) := by
        show (List.zipWith (· + ·) acc.callee_samples
            (f.callees.map fun c => c.sample_record_count))[i]? = some (a + fc.sample_record_count)
        rw [List.getElem?_zipWith', ha, List.getElem?_map, hfc]
        simp
      have hzp : (addFocusToSuite acc f).callee_periods[i]? =
          some (b + fc.period_sum) := by
        show (List.zipWith (· + ·) acc.callee_periods
            (f.callees.map fun c => c.period_sum))[i]? = some (b + fc.period_sum)
        rw [List.getElem?_zipWith', hb, List.getElem?_map, hfc]
        simp
      constructor
      · rw [C1, hzs]
        simp only [Option.getD_some, List.map_cons, List.sum_cons, hfc, Option.map_some', ha,
          Option.some.injEq]
        omega
      · rw [C2, hzp]
        simp only [Option.getD_some, List.map_cons, List.sum_cons, hfc, Option.map_some', hb,
          Option.some.injEq]
        omega

/-- C6: for any processing order of files and any suite that received at
least one file, the accumulated `SuiteAccumulator` holds exactly the sums of
the per-file values over the files of that suite: the benchmark count is the
number of such files, the root counters are the sums of the files' root
counters, and each index-aligned callee counter is the sum of the files'
callee counters at that index. -/
theorem c6_suite_rollup_sums (k : Nat) (files : List (Str × FunctionFocusCounter)) (s : Str)
    (acc : SuiteAccumulator)
    (hlen : ∀ f ∈ files, (f.2).callees.length = k)
    (hacc : suiteAccumulate k files s = some acc) :
    acc.benchmark_count = ((files.filter fun f => decide (f.1 = s)).map Prod.snd).length ∧
    acc.root_samples =
      (((files.filter fun f => decide (f.1 = s)).map Prod.snd).map
        fun f => f.root_sample_record_count).sum ∧
    acc.root_period =
      (((files.filter fun f => decide (f.1 = s)).map Prod.snd).map
        fun f => f.root_period_sum).sum ∧
    ∀ i : Nat, i < k →
      acc.callee_samples[i]? =
        some ((((files.filter fun f => decide (f.1 = s)).map Prod.snd).map
          fun f => ((f.callees[i]?).map fun c => c.sample_record_count).getD 0).sum) ∧
      acc.callee_periods[i]? =
        some ((((files.filter fun f => decide (f.1 = s)).map Prod.snd).map
          fun f => ((f.callees[i]?).map fun c => c.period_sum).getD 0).sum) := by
  unfold suiteAccumulate at hacc
  rw [foldl_stepSuite_apply] at hacc
  by_cases hfil : (files.filter fun f => decide (f.1 = s)) = []
  · rw [if_pos hfil] at hacc
    exact absurd hacc (by simp)
  · rw [if_neg hfil] at hacc
    have hacc' : ((files.filter fun f => decide (f.1 = s)).map Prod.snd).foldl
        addFocusToSuite (initialSuiteAcc k) = acc := by
      simpa using hacc
    subst hacc'
    have hmem : ∀ g ∈ (files.filter fun f => decide (f.1 = s)).map Prod.snd,
        g.callees.length = k := by
      intro g hg
      obtain ⟨p, hp, rfl⟩ := List.mem_map.mp hg
      exact hlen p (List.mem_filter.mp hp).1
    obtain ⟨B1, B2, B3, B4, B5, B6⟩ :=
      foldl_addFocus_spec k _ (initialSuiteAcc k) (by simp [initialSuiteAcc])
        (by simp [initialSuiteAcc]) hmem
    refine ⟨by rw [B1]; simp [initialSuiteAcc], by rw [B2]; simp [initialSuiteAcc],
      by rw [B3]; simp [initialSuiteAcc], ?_⟩
    intro i hi
    obtain ⟨C1, C2⟩ := B6 i hi
    constructor
    · rw [C1]
      simp [initialSuiteAcc, List.getElem?_replicate, hi]
    · rw [C2]
      simp [initialSuiteAcc, List.getElem?_replicate, hi]

/-- Witness for C6 at the spec's example: one suite receiving root sample
counts `{10, 7, 3}` sums to a suite root-sample-count of 20. -/
theorem c6_suite_rollup_sums_witness :
    ({ benchmark_count := 3, root_samples := 20, root_period := 11
       callee_samples := [3], callee_periods := [2] } : SuiteAccumulator).root_samples =
      (((([("a".toList,
            { root_sample_record_count := 10, root_period_sum := 5
              callees := [{ sample_record_count := 2, period_sum := 1 }] }),
          ("a".toList,
            { root_sample_record_count := 7, root_period_sum := 4
              callees := [{ sample_record_count := 1, period_sum := 1 }] }),
          ("a".toList,
            { root_sample_record_count := 3, root_period_sum := 2
              callees := [{ sample_record_count := 0, period_sum := 0 }] })] :
              List (Str × FunctionFocusCounter)).filter
            fun f => decide (f.1 = "a".toList)).map Prod.snd).map
        fun f => f.root_sample_record_count).sum :=
  (c6_suite_rollup_sums 1
      [("a".toList,
          { root_sample_record_count := 10, root_period_sum := 5
            callees := [{ sample_record_count := 2, period_sum := 1 }] }),
        ("a".toList,
          { root_sample_record_count := 7, root_period_sum := 4
            callees := [{ sample_record_count := 1, period_sum := 1 }] }),
        ("a".toList,
          { root_sample_record_count := 3, root_period_sum := 2
            callees := [{ sample_record_count := 0, period_sum := 0 }] })]
      "a".toList
      { benchmark_count := 3, root_samples := 20, root_period := 11
        callee_samples := [3], callee_periods := [2] }
      (by decide) (by decide)).2.1

end PerfAnalyze
